import Mathlib

/-!
# Verification of the note draft-composition engine

Shallow embedding of the Markdown-to-editor-command translation engine and the
draft-assembly helpers of the `note` repository (the TypeScript driver script):
front-matter splitter, inline style segmenter, block classifier, editor command
translator, auto-heading inserter, quote selector, body length clamping and the
resilient element locator.

Strings are modelled as `List Char` (`Str`); JavaScript's implicit machinery
(regex literals, `String.prototype` helpers) is embedded as explicit decidable
functions, each one translated from the concrete source expression it models.
Functions that the source writes as loops over an index are written as
structural recursions (with an explicit fuel argument equal to an upper bound
on the number of iterations where the loop's measure is not structural, so
that everything still evaluates by kernel reduction).
-/

namespace NoteEngine

/-- Strings are lists of characters. -/
abbrev Str := List Char

/-- JavaScript's `\s` character class (the set used by `trim`, `\s` in the
source's regexes): ASCII whitespace, NBSP, the Unicode space separators,
line/paragraph separators and the BOM. -/
def isWs (c : Char) : Bool :=
  c = ' ' || c = '\t' || c = '\n' || c = '\r' ||
  c.val = 0x0b || c.val = 0x0c || c.val = 0xa0 || c.val = 0x1680 ||
  (0x2000 ≤ c.val && c.val ≤ 0x200a) || c.val = 0x2028 || c.val = 0x2029 ||
  c.val = 0x202f || c.val = 0x205f || c.val = 0x3000 || c.val = 0xfeff

/-- `String.prototype.trimEnd`. -/
def trimEndStr (l : Str) : Str :=
  (l.reverse.dropWhile isWs).reverse

/-- `String.prototype.trim`. -/
def jsTrim (l : Str) : Str :=
  trimEndStr (l.dropWhile isWs)

/-- `String.prototype.trimStart`. -/
def jsTrimStart (l : Str) : Str :=
  l.dropWhile isWs

/-- `value.split('\n')` (JavaScript semantics: the result is never empty;
splitting the empty string gives `[""]`). -/
def splitOnNl : Str → List Str
  | [] => [[]]
  | '\n' :: rest => [] :: splitOnNl rest
  | c :: rest =>
    match splitOnNl rest with
    | [] => [[c]]
    | h :: t => (c :: h) :: t

/-- `value.split(',')`, same JavaScript semantics as `splitOnNl`. -/
def splitOnComma : Str → List Str
  | [] => [[]]
  | ',' :: rest => [] :: splitOnComma rest
  | c :: rest =>
    match splitOnComma rest with
    | [] => [[c]]
    | h :: t => (c :: h) :: t

/-- `content.replace(/\r\n/g, '\n')` (left-to-right, non-overlapping). -/
def normalizeCrlf : Str → Str
  | '\r' :: '\n' :: rest => '\n' :: normalizeCrlf rest
  | c :: rest => c :: normalizeCrlf rest
  | [] => []

/-- `content.replace(/^﻿/, '')`. -/
def stripBom : Str → Str
  | c :: rest => if c.val = 0xfeff then rest else c :: rest
  | [] => []

/-! ## Inline style segmenter (`parseInlineSegments`) -/

/-- `InlineStyleState` from the source. -/
structure InlineStyleState where
  bold : Bool
  strike : Bool
deriving DecidableEq, Repr

/-- `InlineSegment` from the source (`InlineStyleState & { text: string }`). -/
structure InlineSegment where
  text : Str
  bold : Bool
  strike : Bool
deriving DecidableEq, Repr

/-- The `flush` closure of `parseInlineSegments`: an empty buffer emits
nothing, otherwise one segment carrying the current style flags. -/
def flushSegment (buffer : Str) (bold strike : Bool) : List InlineSegment :=
  if buffer = [] then [] else [⟨buffer, bold, strike⟩]

/-- The scanning loop of `parseInlineSegments`: `line.startsWith('**', i)`
toggles `bold`, `line.startsWith('~~', i)` toggles `strike`, each toggle
flushes the buffer with the style state active before the toggle; any other
character is appended to the buffer. -/
def inlineScan : Str → Bool → Bool → Str → List InlineSegment
  | [], bold, strike, buffer => flushSegment buffer bold strike
  | [c], bold, strike, buffer => flushSegment (buffer ++ [c]) bold strike
  | c1 :: c2 :: rest, bold, strike, buffer =>
    if c1 = '*' ∧ c2 = '*' then
      flushSegment buffer bold strike ++ inlineScan rest (!bold) strike []
    else if c1 = '~' ∧ c2 = '~' then
      flushSegment buffer bold strike ++ inlineScan rest bold (!strike) []
    else inlineScan (c2 :: rest) bold strike (buffer ++ [c1])

/-- `parseInlineSegments` from the source: scan with `bold = strike = false`
and an empty buffer. -/
def parseInlineSegments (line : Str) : List InlineSegment :=
  inlineScan line false false []

/-- The line with every `**`/`~~` marker substring removed, by the same
left-to-right scan that the segmenter performs. -/
def stripMarkers : Str → Str
  | [] => []
  | [c] => [c]
  | c1 :: c2 :: rest =>
    if (c1 = '*' ∧ c2 = '*') ∨ (c1 = '~' ∧ c2 = '~') then stripMarkers rest
    else c1 :: stripMarkers (c2 :: rest)

/-- Spec-side reformulation of the segmenter (from the spec's wording that a
segment's style flags are the toggle parity of the markers scanned before
it): the same scan, but recording the number of `**` and `~~` markers
consumed so far instead of toggling flags. -/
def inlineScanCounting : Str → Nat → Nat → Str → List (Str × Nat × Nat)
  | [], nb, ns, buffer => if buffer = [] then [] else [(buffer, nb, ns)]
  | [c], nb, ns, buffer =>
    if buffer ++ [c] = [] then [] else [(buffer ++ [c], nb, ns)]
  | c1 :: c2 :: rest, nb, ns, buffer =>
    if c1 = '*' ∧ c2 = '*' then
      (if buffer = [] then [] else [(buffer, nb, ns)]) ++
        inlineScanCounting rest (nb + 1) ns []
    else if c1 = '~' ∧ c2 = '~' then
      (if buffer = [] then [] else [(buffer, nb, ns)]) ++
        inlineScanCounting rest nb (ns + 1) []
    else inlineScanCounting (c2 :: rest) nb ns (buffer ++ [c1])

/-- Segments whose flags are defined as the parity of the number of markers
scanned before the segment (spec-side definition for claim C2). -/
def segmentsByMarkerParity (line : Str) : List InlineSegment :=
  (inlineScanCounting line 0 0 []).map
    (fun s => ⟨s.1, s.2.1 % 2 = 1, s.2.2 % 2 = 1⟩)

/-! ## Markdown block classifier -/

/-- `BlockKind` from the source. -/
inductive BlockKind where
  | paragraph
  | h2
  | h3
  | ul
  | ol
  | quote
  | code
deriving DecidableEq, Repr

/-- `isCodeFence`: the trimmed line starts with a triple backtick. -/
def isCodeFence (line : Str) : Bool :=
  "```".data.isPrefixOf (jsTrim line)

/-- Result of `parseBlockLine`. -/
structure BlockLine where
  kind : BlockKind
  text : Str
deriving DecidableEq, Repr

/-- Leading `#` run of a line (used for the `^###\s+` / `^#{1,2}\s+` tests:
the run must have the tested length and be followed by whitespace, exactly as
the backtracking regexes behave). -/
def hashRun (l : Str) : Str :=
  l.takeWhile (fun c => c = '#')

/-- Does `l` continue with at least one whitespace character? -/
def headIsWs (l : Str) : Bool :=
  match l with
  | c :: _ => isWs c
  | [] => false

/-- `parseBlockLine` from the source: while inside a code block every line is
kind `code` verbatim; otherwise test, in order, `^###\s+`, `^#{1,2}\s+`,
`^>\s+`, `^\d+\.\s+`, `^[-*+]\s+` against the start-trimmed line, stripping
the recognized marker (and the whitespace run after it) from the text. -/
def parseBlockLine (line : Str) (inCodeBlock : Bool) : BlockLine :=
  if inCodeBlock then ⟨.code, line⟩
  else
    let t := jsTrimStart line
    let hr := hashRun t
    let afterHash := t.dropWhile (fun c => c = '#')
    if hr.length = 3 ∧ headIsWs afterHash then
      ⟨.h3, afterHash.dropWhile isWs⟩
    else if (hr.length = 1 ∨ hr.length = 2) ∧ headIsWs afterHash then
      ⟨.h2, afterHash.dropWhile isWs⟩
    else if t.head? = some '>' ∧ headIsWs (t.drop 1) then
      ⟨.quote, (t.drop 1).dropWhile isWs⟩
    else
      let digits := t.takeWhile Char.isDigit
      let afterDigits := t.dropWhile Char.isDigit
      if digits ≠ [] ∧ afterDigits.head? = some '.' ∧ headIsWs (afterDigits.drop 1) then
        ⟨.ol, (afterDigits.drop 1).dropWhile isWs⟩
      else if (t.head? = some '-' ∨ t.head? = some '*' ∨ t.head? = some '+') ∧
          headIsWs (t.drop 1) then
        ⟨.ul, (t.drop 1).dropWhile isWs⟩
      else ⟨.paragraph, line⟩

/-! ## Editor command translator

The source drives a live page (`pressShortcut`, `page.keyboard.type`,
`page.keyboard.press('Enter')`).  Following the spec's external contract, the
translator is embedded as a function emitting the ordered list of abstract
editor actions; the excluded browser layer executes them in order. -/

/-- The two inline styles toggled by `applyInlineStyles`. -/
inductive InlineStyle where
  | bold
  | strike
deriving DecidableEq, Repr

/-- Abstract editor actions (the translator's output contract). -/
inductive EditorAction where
  | blockShortcut (kind : BlockKind)
  | toggle (style : InlineStyle)
  | typeText (text : Str)
  | enter
deriving DecidableEq, Repr

/-- `applyInlineStyles` from the source: emit a bold toggle if the bold flags
differ, then a strike toggle if the strike flags differ; returns the actions
and the updated running state. -/
def applyInlineStyles (current next : InlineStyleState) :
    List EditorAction × InlineStyleState :=
  let (boldActs, b) :=
    if current.bold ≠ next.bold then ([EditorAction.toggle .bold], !current.bold)
    else ([], current.bold)
  let (strikeActs, s) :=
    if current.strike ≠ next.strike then ([EditorAction.toggle .strike], !current.strike)
    else ([], current.strike)
  (boldActs ++ strikeActs, ⟨b, s⟩)

/-- The segment loop of `typeLineWithInlineStyles`: per segment, toggle the
styles that differ from the running state, then type the segment's text (if
non-empty). -/
def typeSegments : List InlineSegment → InlineStyleState →
    List EditorAction × InlineStyleState
  | [], state => ([], state)
  | seg :: rest, state =>
    let (acts, state1) := applyInlineStyles state ⟨seg.bold, seg.strike⟩
    let typed := if seg.text ≠ [] then [EditorAction.typeText seg.text] else []
    let (restActs, state2) := typeSegments rest state1
    (acts ++ typed ++ restActs, state2)

/-- `typeLineWithInlineStyles` from the source: without inline parsing, type
the literal line (if non-empty); with inline parsing, run the segment loop
from `bold = strike = false` and reset both styles to false at the end. -/
def typeLineWithInlineStyles (line : Str) (parseInline : Bool) : List EditorAction :=
  if !parseInline then
    if line.length > 0 then [EditorAction.typeText line] else []
  else
    let (acts, state) := typeSegments (parseInlineSegments line) ⟨false, false⟩
    let (resetActs, _) := applyInlineStyles state ⟨false, false⟩
    acts ++ resetActs

/-- One iteration of the `typeBodyWithShortcuts` loop for the line `line`
(with `nextLine` the following line, or `""` for the last line): code fences
toggle the code block and emit the code shortcut; a blank line outside a code
block presses Enter and resets the block kind to paragraph; otherwise the
block shortcut is emitted when the line's kind differs from the running kind,
the text is typed (inline styles parsed unless disabled or in a code block),
Enter is pressed, and one extra Enter exits a list/quote container when the
next line's kind differs.  Returns the emitted actions and the updated
`(inCodeBlock, currentBlock)` state. -/
def lineStep (parseInlineStyles : Bool) (line nextLine : Str)
    (inCodeBlock : Bool) (currentBlock : BlockKind) :
    List EditorAction × Bool × BlockKind :=
  if isCodeFence line then
    ([EditorAction.blockShortcut .code], !inCodeBlock,
      if inCodeBlock then .paragraph else .code)
  else if jsTrim line = [] ∧ ¬ inCodeBlock then
    ([EditorAction.enter], inCodeBlock, .paragraph)
  else
    let bl := parseBlockLine line inCodeBlock
    let nextKind := if inCodeBlock then BlockKind.code
      else (parseBlockLine nextLine false).kind
    let shortcutActs :=
      if bl.kind ≠ currentBlock then [EditorAction.blockShortcut bl.kind] else []
    let lineActs :=
      typeLineWithInlineStyles bl.text (parseInlineStyles && bl.kind ≠ .code)
    if (bl.kind = .ul ∨ bl.kind = .ol ∨ bl.kind = .quote) ∧ nextKind ≠ bl.kind then
      (shortcutActs ++ lineActs ++ [EditorAction.enter] ++ [EditorAction.enter],
        inCodeBlock, .paragraph)
    else
      (shortcutActs ++ lineActs ++ [EditorAction.enter], inCodeBlock, bl.kind)

/-- The line loop of `typeBodyWithShortcuts`. -/
def typeBodyGo (parseInlineStyles : Bool) :
    List Str → Bool → BlockKind → List EditorAction
  | [], _, _ => []
  | line :: rest, inCodeBlock, currentBlock =>
    let step := lineStep parseInlineStyles line (rest.headD []) inCodeBlock currentBlock
    step.1 ++ typeBodyGo parseInlineStyles rest step.2.1 step.2.2

/-- `typeBodyWithShortcuts` from the source: normalize CRLF, split the body
into lines, and run the loop starting outside any code block with running
block kind `paragraph`.  `parseInlineStyles` is the source's
`postParseInlineStyles` configuration flag. -/
def typeBodyWithShortcuts (parseInlineStyles : Bool) (body : Str) : List EditorAction :=
  typeBodyGo parseInlineStyles (splitOnNl (normalizeCrlf body)) false .paragraph

/-! ## Front-matter splitter (`parseFrontMatter`)

The fence match `/^---\s*\n([\s\S]*?)\n---\s*\n?/` is embedded with the
regex engine's backtracking order: the greedy opening `\s*` tries the longest
whitespace run whose following character is `\n` first, the lazy matter group
takes the earliest position where `\n---` follows, and the trailing
`\s*\n?` greedily consumes whitespace after the closing fence.

The per-line matchers are embedded exactly as the source writes them.  Note
that the source's regex literals are `/^-\\s+(.*)$/` and
`/^([A-Za-z0-9_-]+)\\s*:\\s*(.*)$/`: inside a regex literal `\\` matches one
literal backslash character (it is not the `\s` class), so these patterns
require a literal `\` after the marker/key.  They are embedded with exactly
that meaning. -/

/-- A front-matter attribute value: scalar or list. -/
inductive FMValue where
  | str (s : Str)
  | list (l : List Str)
deriving DecidableEq, Repr

/-- Result of `parseFrontMatter`. -/
structure FrontMatter where
  attributes : List (Str × FMValue)
  body : Str
deriving DecidableEq, Repr

/-- JavaScript object assignment `attributes[key] = v`: replace in place if
the key exists, otherwise append (insertion order preserved). -/
def upsert : List (Str × FMValue) → Str → FMValue → List (Str × FMValue)
  | [], k, v => [(k, v)]
  | (k0, v0) :: rest, k, v =>
    if k0 = k then (k, v) :: rest else (k0, v0) :: upsert rest k v

/-- `attributes[key]` lookup. -/
def lookupAttr : List (Str × FMValue) → Str → Option FMValue
  | [], _ => none
  | (k0, v0) :: rest, k => if k0 = k then some v0 else lookupAttr rest k

/-- `stripOuterQuotes` from the source: strip one pair of matching double or
single quotes (`slice(1, -1)`). -/
def stripOuterQuotes (value : Str) : Str :=
  let dq : Char := Char.ofNat 34
  let sq : Char := Char.ofNat 39
  if (value.head? = some dq ∧ value.getLast? = some dq) ∨
      (value.head? = some sq ∧ value.getLast? = some sq) then
    (value.drop 1).dropLast
  else value

/-- `parseInlineArray` from the source: a trimmed `[...]` literal split on
commas, each part trimmed, outer quotes stripped, empties dropped; `none`
when the value is not bracketed. -/
def parseInlineArray (value : Str) : Option (List Str) :=
  let trimmed := jsTrim value
  if trimmed.head? = some '[' ∧ trimmed.getLast? = some ']' then
    let inner := jsTrim ((trimmed.drop 1).dropLast)
    if inner = [] then some []
    else some (((splitOnComma inner).map (fun p => stripOuterQuotes (jsTrim p))).filter
      (fun p => p ≠ []))
  else none

/-- `parseFrontMatterValue` from the source. -/
def parseFrontMatterValue (value : Str) : FMValue :=
  match parseInlineArray value with
  | some arr => .list arr
  | none => .str (stripOuterQuotes (jsTrim value))

/-- Does the string contain a character that JavaScript's `.` refuses to
match (so that `(.*)$` fails on it)? -/
def hasLineTerminator (l : Str) : Bool :=
  l.any (fun c => c = '\n' || c = '\r' || c.val = 0x2028 || c.val = 0x2029)

/-- The source's list-item matcher `/^-\\s+(.*)$/` (a `-`, a literal
backslash, one or more `s` characters, then the capture). -/
def fmListMatch (l : Str) : Option Str :=
  match l with
  | '-' :: c :: rest =>
    if c = Char.ofNat 92 then
      let ss := rest.takeWhile (fun x => x = 's')
      if ss = [] then none
      else
        let cap := rest.dropWhile (fun x => x = 's')
        if hasLineTerminator cap then none else some cap
    else none
  | _ => none

/-- The character class `[A-Za-z0-9_-]`. -/
def isKeyChar (c : Char) : Bool :=
  c.isAlpha || c.isDigit || c = '_' || c = '-'

/-- The source's key matcher `/^([A-Za-z0-9_-]+)\\s*:\\s*(.*)$/` (key
characters, a literal backslash, any number of `s` characters, a colon,
another literal backslash, any number of `s` characters, then the capture). -/
def fmKeyMatch (l : Str) : Option (Str × Str) :=
  let key := l.takeWhile isKeyChar
  if key = [] then none
  else
    match l.dropWhile isKeyChar with
    | c1 :: r1 =>
      if c1 = Char.ofNat 92 then
        match r1.dropWhile (fun x => x = 's') with
        | ':' :: r2 =>
          match r2 with
          | c2 :: r3 =>
            if c2 = Char.ofNat 92 then
              let cap := r3.dropWhile (fun x => x = 's')
              if hasLineTerminator cap then none else some (key, cap)
            else none
          | [] => none
        | _ => none
      else none
    | [] => none

/-- The line loop of `parseFrontMatter` over the raw matter's lines,
threading the current key and the attribute map. -/
def fmLines : List Str → Option Str → List (Str × FMValue) → List (Str × FMValue)
  | [], _, attrs => attrs
  | line :: rest, currentKey, attrs =>
    let trimmed := jsTrim line
    if trimmed = [] ∨ trimmed.head? = some '#' then fmLines rest currentKey attrs
    else
      match fmListMatch trimmed, currentKey with
      | some captured, some key =>
        let values :=
          match lookupAttr attrs key with
          | some (.list vs) => vs
          | _ => []
        let values1 := (values ++ [stripOuterQuotes (jsTrim captured)]).filter
          (fun v => v ≠ [])
        fmLines rest currentKey (upsert attrs key (.list values1))
      | _, _ =>
        match fmKeyMatch trimmed with
        | none => fmLines rest currentKey attrs
        | some (key, rawValue) =>
          if rawValue = [] then fmLines rest (some key) (upsert attrs key (.list []))
          else fmLines rest (some key) (upsert attrs key (parseFrontMatterValue rawValue))

/-- Index of the first position where `\n---` occurs (the closing fence the
lazy matter group stops at). -/
def findClose : Str → Option Nat
  | '\n' :: '-' :: '-' :: '-' :: _ => some 0
  | _ :: rest => (findClose rest).map (fun n => n + 1)
  | [] => none

/-- Try the opening-fence candidates in the regex engine's backtracking
order; each candidate `o` is the position right after a `\n` inside the
whitespace run that follows `^---`.  On success, return the raw matter and
the remainder after the whole match (the closing `---` plus the greedily
consumed trailing whitespace). -/
def fmTryCandidates (s : Str) : List Nat → Option (Str × Str)
  | [] => none
  | o :: os =>
    match findClose (s.drop o) with
    | some rel =>
      let e := o + rel
      let matchEnd := e + 4 + ((s.drop (e + 4)).takeWhile isWs).length
      some ((s.drop o).take rel, s.drop matchEnd)
    | none => fmTryCandidates s os

/-- The fence match `/^---\s*\n([\s\S]*?)\n---\s*\n?/` applied to the
normalized content. -/
def fmFenceMatch (s : Str) : Option (Str × Str) :=
  if s.take 3 = "---".data then
    let run := (s.drop 3).takeWhile isWs
    let candidates :=
      ((List.range run.length).filter (fun j => run.getD j ' ' = '\n')).reverse.map
        (fun j => 3 + j + 1)
    fmTryCandidates s candidates
  else none

/-- `parseFrontMatter` from the source: strip the BOM, normalize CRLF; if
the result does not start with `---\n` or the fence regex does not match,
return no attributes and the original content; otherwise parse the enclosed
lines and return the remainder as the body. -/
def parseFrontMatter (content : Str) : FrontMatter :=
  let normalized := normalizeCrlf (stripBom content)
  if "---\n".data.isPrefixOf normalized then
    match fmFenceMatch normalized with
    | some (rawMatter, body) => ⟨fmLines (splitOnNl rawMatter) none [], body⟩
    | none => ⟨[], content⟩
  else ⟨[], content⟩

/-! ## Auto-heading inserter (`applyAutoHeadings`) -/

/-- `hasMarkdownHeadings` tests `/(^|\n)\s*#{2,3}\s+\S/`.  `headingAt`
checks the pattern minus the anchor at one position: after the whitespace
run, a `#` run of length exactly 2 or 3 (a longer run fails both greedy
attempts of `#{2,3}` because the next character is `#`, not `\s`), then at
least one whitespace and, beyond the whitespace, a non-whitespace
character. -/
def headingAt (l : Str) : Bool :=
  let r := l.dropWhile isWs
  let hs := r.takeWhile (fun c => c = '#')
  let after := r.dropWhile (fun c => c = '#')
  (hs.length = 2 || hs.length = 3) &&
    (match after with
     | c :: _ => isWs c && !(after.dropWhile isWs).isEmpty
     | [] => false)

/-- Scan for the `(^|\n)` anchor: try the heading pattern after every
newline. -/
def headingAfterNl : Str → Bool
  | [] => false
  | c :: rest => (if c = '\n' then headingAt rest else false) || headingAfterNl rest

/-- `hasMarkdownHeadings` from the source. -/
def hasMarkdownHeadings (body : Str) : Bool :=
  headingAt body || headingAfterNl body

/-- `body.split(/\n{2,}/)`: split on maximal runs of two or more newlines
(the greedy regex consumes the whole run).  Fuel is the input length, enough
because every step consumes at least one character. -/
def splitBlankGo : Nat → Str → List Str
  | _, [] => [[]]
  | 0, l => [l]
  | fuel + 1, '\n' :: '\n' :: rest =>
    [] :: splitBlankGo fuel (rest.dropWhile (fun c => c = '\n'))
  | fuel + 1, c :: rest =>
    match splitBlankGo fuel rest with
    | [] => [[c]]
    | h :: t => (c :: h) :: t

/-- `body.split(/\n{2,}/)`. -/
def splitOnBlankLines (l : Str) : List Str :=
  splitBlankGo l.length l

/-- The sentence terminators of the source's sentence regex
`/[^。.!?！？]+[。.!?！？]+|[^。.!?！？]+$/g`. -/
def isSentenceTerm (c : Char) : Bool :=
  c = '。' || c = '.' || c = '!' || c = '?' || c = '！' || c = '？'

/-- `normalized.match(sentenceRegex)`: repeatedly take a maximal
non-terminator run plus the following terminator run (or the final
non-terminator run); a position holding a terminator cannot start a match
and is skipped.  Fuel as in `splitBlankGo`. -/
def sentencesGo : Nat → Str → List Str
  | _, [] => []
  | 0, _ => []
  | fuel + 1, c :: rest =>
    if isSentenceTerm c then sentencesGo fuel rest
    else
      let l := c :: rest
      let pre := l.takeWhile (fun x => !(isSentenceTerm x))
      let r2 := l.dropWhile (fun x => !(isSentenceTerm x))
      let ts := r2.takeWhile isSentenceTerm
      let r3 := r2.dropWhile isSentenceTerm
      (pre ++ ts) :: sentencesGo fuel r3

/-- All sentence-regex matches of `l`. -/
def sentencesOf (l : Str) : List Str :=
  sentencesGo l.length l

/-- `buildParagraphsFromSentences` from the source: accumulate sentences
into a buffer, flushing the trimmed buffer whenever it is non-empty and the
candidate reaches the target length; the final trimmed buffer is kept when
non-empty. -/
def buildParasGo (targetLength : Int) : List Str → Str → List Str
  | [], buffer => if jsTrim buffer ≠ [] then [jsTrim buffer] else []
  | sentence :: rest, buffer =>
    let candidate := if buffer ≠ [] then buffer ++ sentence else sentence
    if buffer ≠ [] ∧ targetLength ≤ (candidate.length : Int) then
      jsTrim buffer :: buildParasGo targetLength rest sentence
    else buildParasGo targetLength rest candidate

/-- `buildParagraphsFromSentences` from the source. -/
def buildParagraphsFromSentences (sentences : List Str) (targetLength : Int) : List Str :=
  buildParasGo targetLength sentences []

/-- `splitParagraphs` from the source: normalize CRLF and trim; split on
blank-line runs (trimming each part and dropping empties); when that yields
a single paragraph, fall back to sentence grouping. -/
def splitParagraphs (body : Str) (targetLength : Int) : List Str :=
  let normalized := jsTrim (normalizeCrlf body)
  if normalized = [] then []
  else
    let parts := ((splitOnBlankLines normalized).map jsTrim).filter (fun p => p ≠ [])
    if parts.length > 1 then parts
    else
      let sentences := sentencesOf normalized
      if sentences.length ≤ 1 then [normalized]
      else buildParagraphsFromSentences sentences targetLength

/-- The configuration the auto-heading inserter reads from the environment
(`AUTO_HEADINGS`, `AUTO_HEADING_MIN_PARAGRAPHS`, `AUTO_HEADING_PARAGRAPH_TARGET`,
`H2_EVERY`, `H3_EVERY`, `H2_PREFIX`, `H3_PREFIX`). -/
structure AutoHeadingConfig where
  autoHeadings : Bool
  minParagraphs : Int
  paragraphTarget : Int
  h2Every : Int
  h3Every : Int
  h2Prefix : Str
  h3Prefix : Str

/-- Decimal rendering of a heading counter (JavaScript number-to-string on a
positive integer). -/
def natStr (n : Nat) : Str :=
  (Nat.repr n).data

/-- The heading-insertion loop of `applyAutoHeadings`: before every
`safeH2Every`-th paragraph insert a numbered `##` line; otherwise, when
`safeH3Every` is positive, before every `safeH3Every`-th paragraph insert a
numbered `###` line. -/
def buildAutoLines (safeH2Every safeH3Every : Nat) (p2 p3 : Str) :
    Nat → Nat → Nat → List Str → List Str
  | _, _, _, [] => []
  | i, h2Index, h3Index, para :: rest =>
    if i % safeH2Every = 0 then
      (['#', '#', ' '] ++ p2 ++ (' ' :: natStr h2Index)) :: para ::
        buildAutoLines safeH2Every safeH3Every p2 p3 (i + 1) (h2Index + 1) h3Index rest
    else if 0 < safeH3Every ∧ i % safeH3Every = 0 then
      (['#', '#', '#', ' '] ++ p3 ++ (' ' :: natStr h3Index)) :: para ::
        buildAutoLines safeH2Every safeH3Every p2 p3 (i + 1) h2Index (h3Index + 1) rest
    else
      para :: buildAutoLines safeH2Every safeH3Every p2 p3 (i + 1) h2Index h3Index rest

/-- `lines.join('\n\n')`. -/
def joinBlank : List Str → Str
  | [] => []
  | [x] => x
  | x :: xs => x ++ ('\n' :: '\n' :: joinBlank xs)

/-- `applyAutoHeadings` from the source: disabled, blank, already-headed or
too-short bodies are returned unchanged; otherwise the paragraphs are
interleaved with numbered `##`/`###` heading lines and re-joined with blank
lines. -/
def applyAutoHeadings (cfg : AutoHeadingConfig) (body : Str) : Str :=
  if ¬ cfg.autoHeadings then body
  else if jsTrim body = [] then body
  else if hasMarkdownHeadings body then body
  else
    let paragraphs := splitParagraphs body cfg.paragraphTarget
    if (paragraphs.length : Int) < cfg.minParagraphs then body
    else
      let safeH2Every := (max 1 cfg.h2Every).toNat
      let safeH3Every := (max 0 cfg.h3Every).toNat
      let p2 := if cfg.h2Prefix ≠ [] then cfg.h2Prefix else "Section".data
      let p3 := if cfg.h3Prefix ≠ [] then cfg.h3Prefix else "Point".data
      joinBlank (buildAutoLines safeH2Every safeH3Every p2 p3 0 1 1 paragraphs)

/-! ## Quote selector (`selectQuotes`)

`extractTextBlocks` turns a detail page's HTML into a list of
whitespace-normalized text blocks with an external HTML library (cheerio);
that boundary is modelled by giving each `DetailPage` its extracted text
blocks directly.  `selectQuotes` re-normalizes each block, exactly as the
source does. -/

/-- `value.replace(/\s+/g, ' ')`: collapse every whitespace run to a single
space, tracked with a previous-character-was-whitespace flag so the
recursion is structural. -/
def collapseWsGo : Bool → Str → Str
  | _, [] => []
  | prevWs, c :: rest =>
    if isWs c then
      if prevWs then collapseWsGo true rest else ' ' :: collapseWsGo true rest
    else c :: collapseWsGo false rest

/-- `normalizeWhitespace` from the source: collapse whitespace runs, then
trim. -/
def normalizeWhitespace (value : Str) : Str :=
  jsTrim (collapseWsGo false value)

/-- A detail page, with `content` the text blocks `extractTextBlocks`
produces from its HTML. -/
structure DetailPage where
  url : Str
  title : Str
  content : List Str
deriving DecidableEq, Repr

/-- `Quote` from the source. -/
structure Quote where
  text : Str
  url : Str
  title : Str
deriving DecidableEq, Repr

/-- The `shortened` expression of `selectQuotes`: truncate a normalized
block longer than `maxLength` to its first `maxLength - 1` characters,
trimmed at the end, plus the ellipsis character. -/
def shortenBlock (maxLength : Nat) (normalized : Str) : Str :=
  if maxLength < normalized.length then
    trimEndStr (normalized.take (maxLength - 1)) ++ ['…']
  else normalized

/-- The inner block loop of `selectQuotes` for one page: skip blocks whose
normalized text is shorter than `minLength`; truncate longer-than-`maxLength`
blocks (`shortenBlock`); skip exact duplicates; push the quote and stop for
this page once the per-page count or the global count limit is reached.
Returns the quotes added for this page, the updated duplicate set, and the
updated global count. -/
def selectFromBlocks (minLength maxLength perPage safeLimit : Nat)
    (url title : Str) :
    List Str → List Str → Nat → Nat → List Quote × List Str × Nat
  | [], seen, _, count => ([], seen, count)
  | block :: rest, seen, added, count =>
    let normalized := normalizeWhitespace block
    if normalized.length < minLength then
      selectFromBlocks minLength maxLength perPage safeLimit url title rest seen added count
    else
      let shortened := shortenBlock maxLength normalized
      if shortened ∈ seen then
        selectFromBlocks minLength maxLength perPage safeLimit url title rest seen added count
      else
        let seen1 := shortened :: seen
        let q : Quote := ⟨shortened, url, title⟩
        if perPage ≤ added + 1 ∨ safeLimit ≤ count + 1 then ([q], seen1, count + 1)
        else
          let r := selectFromBlocks minLength maxLength perPage safeLimit url title rest
            seen1 (added + 1) (count + 1)
          (q :: r.1, r.2.1, r.2.2)

/-- The outer page loop of `selectQuotes` (flat quote list). -/
def selectPagesGo (minLength maxLength perPage safeLimit : Nat) :
    List DetailPage → List Str → Nat → List Quote
  | [], _, _ => []
  | page :: rest, seen, count =>
    if safeLimit ≤ count then []
    else
      let r := selectFromBlocks minLength maxLength perPage safeLimit page.url page.title
        page.content seen 0 count
      r.1 ++ selectPagesGo minLength maxLength perPage safeLimit rest r.2.1 r.2.2

/-- The outer page loop, but keeping each page's contribution as its own
chunk (used to state the per-document bound). -/
def selectPagesChunks (minLength maxLength perPage safeLimit : Nat) :
    List DetailPage → List Str → Nat → List (List Quote)
  | [], _, _ => []
  | page :: rest, seen, count =>
    if safeLimit ≤ count then []
    else
      let r := selectFromBlocks minLength maxLength perPage safeLimit page.url page.title
        page.content seen 0 count
      r.1 :: selectPagesChunks minLength maxLength perPage safeLimit rest r.2.1 r.2.2

/-- `selectQuotes` from the source.  The four bounds are JavaScript numbers;
the source floors them and clamps: `safeLimit = max(0, ⌊limit⌋)` (empty
result when zero), `perPage = max(1, ⌊perPageLimit⌋)`,
`minLength = max(10, ⌊minLength⌋)`, `maxLength = max(minLength, ⌊maxLength⌋)`.
Integral bounds are modelled as `Int` (flooring is the identity). -/
def selectQuotes (detailPages : List DetailPage)
    (limit perPageLimit minLength maxLength : Int) : List Quote :=
  let safeLimit := (max 0 limit).toNat
  if safeLimit = 0 then []
  else
    let perPage := (max 1 perPageLimit).toNat
    let minLen := max 10 minLength.toNat
    let maxLen := max minLen maxLength.toNat
    selectPagesGo minLen maxLen perPage safeLimit detailPages [] 0

/-- Per-document contributions of `selectQuotes` (same loop, chunked per
page). -/
def selectQuotesChunks (detailPages : List DetailPage)
    (limit perPageLimit minLength maxLength : Int) : List (List Quote) :=
  let safeLimit := (max 0 limit).toNat
  if safeLimit = 0 then []
  else
    let perPage := (max 1 perPageLimit).toNat
    let minLen := max 10 minLength.toNat
    let maxLen := max minLen maxLength.toNat
    selectPagesChunks minLen maxLen perPage safeLimit detailPages [] 0

/-! ## Body length clamping (`clampBodyLength`) -/

/-- The paragraph list `clampBodyLength` builds:
`body.split(/\n{2,}/).map(p => p.trim()).filter(Boolean)`. -/
def clampParagraphs (body : Str) : List Str :=
  ((splitOnBlankLines body).map jsTrim).filter (fun p => p ≠ [])

/-- The greedy chunk loop of `clampBodyLength`: keep whole paragraphs while
the running count (paragraph lengths plus 2 per `\n\n` separator) stays
within `maxChars`; stop at the first paragraph that does not fit. -/
def clampChunksGo (maxChars : Nat) : List Str → Nat → Bool → List Str
  | [], _, _ => []
  | p :: ps, count, first =>
    let separator := if first then 0 else 2
    if maxChars < count + separator + p.length then []
    else p :: clampChunksGo maxChars ps (count + separator + p.length) false

/-- `clampBodyLength` from the source: bodies within the limit (or a
non-positive limit) pass through; otherwise keep a greedy prefix of whole
paragraphs re-joined with blank lines (sliced to `maxChars` and trimmed), or,
when not even the first paragraph fits, the raw character prefix, trimmed. -/
def clampBodyLength (body : Str) (maxChars : Int) : Str :=
  if maxChars ≤ 0 ∨ (body.length : Int) ≤ maxChars then body
  else
    let m := maxChars.toNat
    let chunks := clampChunksGo m (clampParagraphs body) 0 true
    if chunks ≠ [] then jsTrim ((joinBlank chunks).take m)
    else jsTrim (body.take m)

/-! ## Resilient element locator (`findFirstVisibleHandle`)

The locator polls the live page; the page is modelled as an environment
mapping a time (ms) and a selector to `page.$`'s answer: `none` when the
element does not exist, `some box` when it exists and `boundingBox()` yields
`box` (`none` inside when `boundingBox` fails).  Time is modelled logically:
the selector sweep is instantaneous and each `sleep(200)` advances the clock
by the 200 ms poll interval, matching the source's `Date.now()` guard. -/

/-- A rendered bounding box (width, height). -/
structure Box where
  width : Nat
  height : Nat
deriving DecidableEq, Repr

/-- The page environment: element presence and bounding box per time and
selector. -/
def PageEnv := Nat → Str → Option (Option Box)

/-- Does selector `sel` qualify at time `t`: the element exists and its box
has non-zero width and height. -/
def qualifies (env : PageEnv) (t : Nat) (sel : Str) : Bool :=
  match env t sel with
  | some (some box) => 0 < box.width && 0 < box.height
  | _ => false

/-- The inner `for (const selector of selectors)` sweep: the first
qualifying selector, in order (non-qualifying handles are disposed and
skipped). -/
def firstQualifying (env : PageEnv) (t : Nat) : List Str → Option Str
  | [] => none
  | sel :: rest =>
    if qualifies env t sel then some sel else firstQualifying env t rest

/-- The polling loop `while (Date.now() - start < timeoutMs)`: sweep the
selectors, then sleep 200 ms and retry; once the elapsed time reaches the
timeout, report not-found.  Returns the outcome and the time at which the
loop returned.  Fuel bounds the iteration count (each iteration advances the
clock by 200 ms, so `timeoutMs + 1` iterations always suffice). -/
def locatorLoop (env : PageEnv) (selectors : List Str) (timeoutMs start : Nat) :
    Nat → Nat → Option Str × Nat
  | 0, t => (none, t)
  | fuel + 1, t =>
    if t - start < timeoutMs then
      match firstQualifying env t selectors with
      | some sel => (some sel, t)
      | none => locatorLoop env selectors timeoutMs start fuel (t + 200)
    else (none, t)

/-- `findFirstVisibleHandle` from the source, started at time `start`
(`Date.now()` at entry): the first qualifying selector, or not-found once
the timeout elapses, together with the return time. -/
def findFirstVisibleHandle (env : PageEnv) (selectors : List Str)
    (timeoutMs start : Nat) : Option Str × Nat :=
  locatorLoop env selectors timeoutMs start (timeoutMs + 1) start

/-! ## Lemmas about the inline segmenter -/

theorem join_flushSegment (buf : Str) (b s : Bool) :
    ((flushSegment buf b s).map InlineSegment.text).flatten = buf := by
  unfold flushSegment
  split <;> simp_all

theorem mem_flushSegment {seg : InlineSegment} {buf : Str} {b s : Bool}
    (h : seg ∈ flushSegment buf b s) : seg.text = buf ∧ buf ≠ [] := by
  unfold flushSegment at h
  split at h <;> simp_all

theorem inlineScan_cons2_star {c1 c2 : Char} (rest : Str) (b s : Bool) (buf : Str)
    (h : c1 = '*' ∧ c2 = '*') :
    inlineScan (c1 :: c2 :: rest) b s buf =
      flushSegment buf b s ++ inlineScan rest (!b) s [] := by
  simp only [inlineScan]
  rw [if_pos h]

theorem inlineScan_cons2_tilde {c1 c2 : Char} (rest : Str) (b s : Bool) (buf : Str)
    (h1 : ¬ (c1 = '*' ∧ c2 = '*')) (h2 : c1 = '~' ∧ c2 = '~') :
    inlineScan (c1 :: c2 :: rest) b s buf =
      flushSegment buf b s ++ inlineScan rest b (!s) [] := by
  simp only [inlineScan]
  rw [if_neg h1, if_pos h2]

theorem inlineScan_cons2_other {c1 c2 : Char} (rest : Str) (b s : Bool) (buf : Str)
    (h1 : ¬ (c1 = '*' ∧ c2 = '*')) (h2 : ¬ (c1 = '~' ∧ c2 = '~')) :
    inlineScan (c1 :: c2 :: rest) b s buf =
      inlineScan (c2 :: rest) b s (buf ++ [c1]) := by
  simp only [inlineScan]
  rw [if_neg h1, if_neg h2]

theorem stripMarkers_cons2_marker {c1 c2 : Char} (rest : Str)
    (h : (c1 = '*' ∧ c2 = '*') ∨ (c1 = '~' ∧ c2 = '~')) :
    stripMarkers (c1 :: c2 :: rest) = stripMarkers rest := by
  simp only [stripMarkers]
  rw [if_pos h]

theorem stripMarkers_cons2_other {c1 c2 : Char} (rest : Str)
    (h : ¬ ((c1 = '*' ∧ c2 = '*') ∨ (c1 = '~' ∧ c2 = '~'))) :
    stripMarkers (c1 :: c2 :: rest) = c1 :: stripMarkers (c2 :: rest) := by
  simp only [stripMarkers]
  rw [if_neg h]

theorem inlineScan_join : ∀ (l : Str) (b s : Bool) (buf : Str),
    ((inlineScan l b s buf).map InlineSegment.text).flatten = buf ++ stripMarkers l
  | [], b, s, buf => by
    simp [inlineScan, stripMarkers, join_flushSegment]
  | [c], b, s, buf => by
    simp only [inlineScan, stripMarkers, flushSegment]
    split <;> simp_all
  | c1 :: c2 :: rest, b, s, buf => by
    by_cases h1 : c1 = '*' ∧ c2 = '*'
    · rw [inlineScan_cons2_star rest b s buf h1, stripMarkers_cons2_marker rest (Or.inl h1)]
      simp [join_flushSegment, inlineScan_join rest (!b) s []]
    · by_cases h2 : c1 = '~' ∧ c2 = '~'
      · rw [inlineScan_cons2_tilde rest b s buf h1 h2,
          stripMarkers_cons2_marker rest (Or.inr h2)]
        simp [join_flushSegment, inlineScan_join rest b (!s) []]
      · rw [inlineScan_cons2_other rest b s buf h1 h2,
          stripMarkers_cons2_other rest (by tauto),
          inlineScan_join (c2 :: rest) b s (buf ++ [c1])]
        simp

theorem inlineScan_text_ne_nil : ∀ (l : Str) (b s : Bool) (buf : Str),
    ∀ seg ∈ inlineScan l b s buf, seg.text ≠ []
  | [], b, s, buf => by
    intro seg hseg
    rw [show inlineScan [] b s buf = flushSegment buf b s from rfl] at hseg
    have := mem_flushSegment hseg
    simp_all
  | [c], b, s, buf => by
    intro seg hseg
    rw [show inlineScan [c] b s buf = flushSegment (buf ++ [c]) b s from rfl] at hseg
    have := mem_flushSegment hseg
    simp_all
  | c1 :: c2 :: rest, b, s, buf => by
    intro seg hseg
    by_cases h1 : c1 = '*' ∧ c2 = '*'
    · rw [inlineScan_cons2_star rest b s buf h1] at hseg
      rcases List.mem_append.mp hseg with h | h
      · have := mem_flushSegment h
        simp_all
      · exact inlineScan_text_ne_nil rest (!b) s [] seg h
    · by_cases h2 : c1 = '~' ∧ c2 = '~'
      · rw [inlineScan_cons2_tilde rest b s buf h1 h2] at hseg
        rcases List.mem_append.mp hseg with h | h
        · have := mem_flushSegment h
          simp_all
        · exact inlineScan_text_ne_nil rest b (!s) [] seg h
      · rw [inlineScan_cons2_other rest b s buf h1 h2] at hseg
        exact inlineScan_text_ne_nil (c2 :: rest) b s (buf ++ [c1]) seg hseg

theorem decide_mod_two_succ (n : Nat) :
    (!decide (n % 2 = 1)) = decide ((n + 1) % 2 = 1) := by
  rcases Nat.mod_two_eq_zero_or_one n with h | h <;>
    simp [h, Nat.add_mod]

theorem counting_cons2_star {c1 c2 : Char} (rest : Str) (nb ns : Nat) (buf : Str)
    (h : c1 = '*' ∧ c2 = '*') :
    inlineScanCounting (c1 :: c2 :: rest) nb ns buf =
      (if buf = [] then [] else [(buf, nb, ns)]) ++
        inlineScanCounting rest (nb + 1) ns [] := by
  simp only [inlineScanCounting]
  rw [if_pos h]

theorem counting_cons2_tilde {c1 c2 : Char} (rest : Str) (nb ns : Nat) (buf : Str)
    (h1 : ¬ (c1 = '*' ∧ c2 = '*')) (h2 : c1 = '~' ∧ c2 = '~') :
    inlineScanCounting (c1 :: c2 :: rest) nb ns buf =
      (if buf = [] then [] else [(buf, nb, ns)]) ++
        inlineScanCounting rest nb (ns + 1) [] := by
  simp only [inlineScanCounting]
  rw [if_neg h1, if_pos h2]

theorem counting_cons2_other {c1 c2 : Char} (rest : Str) (nb ns : Nat) (buf : Str)
    (h1 : ¬ (c1 = '*' ∧ c2 = '*')) (h2 : ¬ (c1 = '~' ∧ c2 = '~')) :
    inlineScanCounting (c1 :: c2 :: rest) nb ns buf =
      inlineScanCounting (c2 :: rest) nb ns (buf ++ [c1]) := by
  simp only [inlineScanCounting]
  rw [if_neg h1, if_neg h2]

theorem inlineScan_eq_counting : ∀ (l : Str) (nb ns : Nat) (buf : Str),
    inlineScan l (decide (nb % 2 = 1)) (decide (ns % 2 = 1)) buf =
      (inlineScanCounting l nb ns buf).map
        (fun s => ⟨s.1, decide (s.2.1 % 2 = 1), decide (s.2.2 % 2 = 1)⟩)
  | [], nb, ns, buf => by
    simp only [inlineScan, inlineScanCounting, flushSegment]
    by_cases hbuf : buf = [] <;> simp [hbuf]
  | [c], nb, ns, buf => by
    simp only [inlineScan, inlineScanCounting, flushSegment]
    by_cases hbuf : buf ++ [c] = [] <;> simp [hbuf]
  | c1 :: c2 :: rest, nb, ns, buf => by
    by_cases h1 : c1 = '*' ∧ c2 = '*'
    · have ih := inlineScan_eq_counting rest (nb + 1) ns []
      rw [← decide_mod_two_succ] at ih
      rw [inlineScan_cons2_star rest _ _ buf h1, counting_cons2_star rest nb ns buf h1,
        List.map_append, ih, flushSegment]
      by_cases hbuf : buf = [] <;> simp [hbuf]
    · by_cases h2 : c1 = '~' ∧ c2 = '~'
      · have ih := inlineScan_eq_counting rest nb (ns + 1) []
        rw [← decide_mod_two_succ] at ih
        rw [inlineScan_cons2_tilde rest _ _ buf h1 h2,
          counting_cons2_tilde rest nb ns buf h1 h2, List.map_append, ih, flushSegment]
        by_cases hbuf : buf = [] <;> simp [hbuf]
      · rw [inlineScan_cons2_other rest _ _ buf h1 h2,
          counting_cons2_other rest nb ns buf h1 h2]
        exact inlineScan_eq_counting (c2 :: rest) nb ns (buf ++ [c1])

/-! ## Claim theorems -/

/-- C1 (status: code bug).  The Front-Matter Splitter applied to the spec's
example input `"---\ntitle: Hello\ntags: [a, b]\n---\nBody text"` strips the
fence and returns the body `"Body text"`, but produces no attributes at all:
the source's key-line regex `/^([A-Za-z0-9_-]+)\\s*:\\s*(.*)$/` demands a
literal backslash after the key (`\\` in a regex literal matches a backslash
character, not the `\s` class), so `title: Hello` and `tags: [a, b]` never
match and are silently skipped — contradicting the spec's example
attributes `{title: "Hello", tags: ["a","b"]}`. -/
theorem parseFrontMatter_example_attributes_empty :
    parseFrontMatter ("---\ntitle: Hello\ntags: [a, b]\n---\nBody text").data =
      ⟨[], "Body text".data⟩ := by
  decide

/-- C2 (status: confirmed).  For every input line: concatenating the texts of
all segments emitted by `parseInlineSegments` equals the line with every
`**`/`~~` marker substring removed (by the same left-to-right scan); no
emitted segment has empty text; each segment's bold/strike flag equals the
parity of the number of `**`/`~~` markers scanned before it; and on
`"a**b**c"` the segmenter yields `[{a,¬bold},{b,bold},{c,¬bold}]`. -/
theorem parseInlineSegments_spec :
    (∀ line : Str,
      ((parseInlineSegments line).map InlineSegment.text).flatten = stripMarkers line) ∧
    (∀ line : Str, ∀ seg ∈ parseInlineSegments line, seg.text ≠ []) ∧
    (∀ line : Str, parseInlineSegments line = segmentsByMarkerParity line) ∧
    parseInlineSegments "a**b**c".data =
      [⟨"a".data, false, false⟩, ⟨"b".data, true, false⟩, ⟨"c".data, false, false⟩] := by
  refine ⟨fun line => ?_, fun line => inlineScan_text_ne_nil line false false [],
    fun line => ?_, by decide⟩
  · simpa using inlineScan_join line false false []
  · simpa [parseInlineSegments, segmentsByMarkerParity] using
      inlineScan_eq_counting line 0 0 []

/-- Witness for C2's membership hypothesis: the first segment of `"a**b"`
has non-empty text. -/
theorem parseInlineSegments_spec_witness :
    (⟨"a".data, false, false⟩ : InlineSegment) ∈ parseInlineSegments "a**b".data ∧
      (⟨"a".data, false, false⟩ : InlineSegment).text ≠ [] :=
  ⟨by decide, parseInlineSegments_spec.2.1 "a**b".data ⟨"a".data, false, false⟩ (by decide)⟩

/-- C3 (status: confirmed).  On the body whose classified blocks are
`[{heading-2, "Intro"}, {paragraph, "**bold** text"}]`, the translator
(starting at block kind paragraph with bold = strike = false) emits exactly:
block-shortcut(h2), type("Intro"), enter, block-shortcut(paragraph),
toggle(bold), type("bold"), toggle(bold), type(" text"), enter. -/
theorem typeBody_example_actions :
    typeBodyWithShortcuts true "## Intro\n**bold** text".data =
      [EditorAction.blockShortcut .h2, EditorAction.typeText "Intro".data,
        EditorAction.enter, EditorAction.blockShortcut .paragraph,
        EditorAction.toggle .bold, EditorAction.typeText "bold".data,
        EditorAction.toggle .bold, EditorAction.typeText " text".data,
        EditorAction.enter] := by
  decide

/-! ## Lemmas about the translator's per-line step -/

theorem enter_not_mem_applyInlineStyles (current next : InlineStyleState) :
    EditorAction.enter ∉ (applyInlineStyles current next).1 := by
  unfold applyInlineStyles
  by_cases hb : current.bold ≠ next.bold <;> by_cases hs : current.strike ≠ next.strike <;>
    simp [hb, hs]

theorem enter_not_mem_typeSegments (segs : List InlineSegment) :
    ∀ state : InlineStyleState, EditorAction.enter ∉ (typeSegments segs state).1 := by
  induction segs with
  | nil => intro state; simp [typeSegments]
  | cons seg rest ih =>
    intro state
    simp only [typeSegments, List.mem_append]
    push_neg
    refine ⟨⟨enter_not_mem_applyInlineStyles state ⟨seg.bold, seg.strike⟩, ?_⟩, ih _⟩
    split <;> simp

theorem enter_not_mem_typeLine (line : Str) (parseInline : Bool) :
    EditorAction.enter ∉ typeLineWithInlineStyles line parseInline := by
  unfold typeLineWithInlineStyles
  split
  · split <;> simp
  · simp only [List.mem_append]
    push_neg
    exact ⟨enter_not_mem_typeSegments _ _, enter_not_mem_applyInlineStyles _ _⟩

/-- C7 (status: confirmed).  When the translator processes a line whose
parsed kind is unordered-list, ordered-list or quote (outside any code
block) and the following line's kind differs, the step emits its actions as
some prefix containing no line break, followed by the block's normal line
break plus exactly one extra line break, and the running block kind resets
to paragraph. -/
theorem lineStep_list_quote_exit (parseInlineStyles : Bool) (line next : Str)
    (currentBlock : BlockKind)
    (hfence : isCodeFence line = false)
    (hblank : jsTrim line ≠ [])
    (hkind : (parseBlockLine line false).kind = .ul ∨
      (parseBlockLine line false).kind = .ol ∨
      (parseBlockLine line false).kind = .quote)
    (hnext : (parseBlockLine next false).kind ≠ (parseBlockLine line false).kind) :
    ∃ pre : List EditorAction,
      (lineStep parseInlineStyles line next false currentBlock).1 =
        pre ++ [EditorAction.enter, EditorAction.enter] ∧
      EditorAction.enter ∉ pre ∧
      (lineStep parseInlineStyles line next false currentBlock).2.2 = .paragraph := by
  unfold lineStep
  rw [if_neg (by simp [hfence]), if_neg (by simp [hblank])]
  rw [if_pos (by exact ⟨hkind, fun h => hnext (by simpa using h)⟩)]
  refine ⟨(if (parseBlockLine line false).kind ≠ currentBlock then
      [EditorAction.blockShortcut (parseBlockLine line false).kind] else []) ++
      typeLineWithInlineStyles (parseBlockLine line false).text
        (parseInlineStyles && (parseBlockLine line false).kind ≠ .code), ?_, ?_, rfl⟩
  · simp
  · simp only [List.mem_append]
    push_neg
    refine ⟨?_, enter_not_mem_typeLine _ _⟩
    split <;> simp

/-- Witness for C7 at the line `"- a"` followed by `"b"`. -/
theorem lineStep_list_quote_exit_witness :
    ∃ pre : List EditorAction,
      (lineStep true "- a".data "b".data false .paragraph).1 =
        pre ++ [EditorAction.enter, EditorAction.enter] ∧
      EditorAction.enter ∉ pre ∧
      (lineStep true "- a".data "b".data false .paragraph).2.2 = .paragraph :=
  lineStep_list_quote_exit true "- a".data "b".data .paragraph (by decide) (by decide)
    (by decide) (by decide)

/-- C9 (status: confirmed).  When the (BOM-stripped, CRLF-normalized) input
does not begin with the opening fence `---` on its own line, the
Front-Matter Splitter returns empty attributes and the original text
unchanged.  (The embedding is a total function: no input can make it fail,
and lines inside a matched fence that fit no pattern are skipped by
`fmLines`.) -/
theorem parseFrontMatter_no_fence (content : Str)
    (h : "---\n".data.isPrefixOf (normalizeCrlf (stripBom content)) = false) :
    parseFrontMatter content = ⟨[], content⟩ := by
  unfold parseFrontMatter
  rw [if_neg (by simp [h])]

/-- Witness for C9 at the input `"Hello world"`. -/
theorem parseFrontMatter_no_fence_witness :
    parseFrontMatter "Hello world".data = ⟨[], "Hello world".data⟩ :=
  parseFrontMatter_no_fence "Hello world".data (by decide)

/-! ## Lemmas about the resilient element locator -/

theorem firstQualifying_spec (env : PageEnv) (t : Nat) :
    ∀ selectors : List Str, ∀ sel : Str, firstQualifying env t selectors = some sel →
      qualifies env t sel = true ∧
      ∃ l1 l2, selectors = l1 ++ sel :: l2 ∧ ∀ x ∈ l1, qualifies env t x = false := by
  intro selectors
  induction selectors with
  | nil => intro sel h; simp [firstQualifying] at h
  | cons s0 rest ih =>
    intro sel h
    unfold firstQualifying at h
    by_cases hq : qualifies env t s0 = true
    · rw [if_pos hq] at h
      rcases Option.some_inj.mp h with rfl
      exact ⟨hq, [], rest, rfl, by simp⟩
    · rw [if_neg hq] at h
      rcases ih sel h with ⟨hsel, l1, l2, hsplit, hprev⟩
      refine ⟨hsel, s0 :: l1, l2, by simp [hsplit], ?_⟩
      intro x hx
      rcases List.mem_cons.mp hx with rfl | hx
      · simpa using hq
      · exact hprev x hx

theorem firstQualifying_none_of_never (env : PageEnv) (t : Nat)
    (hnever : ∀ u sel, qualifies env u sel = false) :
    ∀ selectors : List Str, firstQualifying env t selectors = none := by
  intro selectors
  induction selectors with
  | nil => rfl
  | cons s0 rest ih => simp [firstQualifying, hnever t s0, ih]

theorem locatorLoop_never_qualifies (env : PageEnv) (selectors : List Str)
    (timeoutMs start : Nat)
    (hnever : ∀ t sel, qualifies env t sel = false) :
    ∀ (fuel t : Nat), start ≤ t → timeoutMs ≤ t - start + 200 * fuel →
      t - start < timeoutMs + 200 →
      (locatorLoop env selectors timeoutMs start fuel t).1 = none ∧
      timeoutMs ≤ (locatorLoop env selectors timeoutMs start fuel t).2 - start ∧
      (locatorLoop env selectors timeoutMs start fuel t).2 - start < timeoutMs + 200 := by
  intro fuel
  induction fuel with
  | zero =>
    intro t hle hfuel hupper
    have e : locatorLoop env selectors timeoutMs start 0 t = (none, t) := rfl
    rw [e]
    refine ⟨rfl, ?_, ?_⟩ <;> simp <;> omega
  | succ fuel ih =>
    intro t hle hfuel hupper
    by_cases hloop : t - start < timeoutMs
    · have e : locatorLoop env selectors timeoutMs start (fuel + 1) t =
          locatorLoop env selectors timeoutMs start fuel (t + 200) := by
        simp only [locatorLoop, if_pos hloop, firstQualifying_none_of_never env t hnever]
      rw [e]
      exact ih (t + 200) (by omega) (by omega) (by omega)
    · have e : locatorLoop env selectors timeoutMs start (fuel + 1) t = (none, t) := by
        simp only [locatorLoop, if_neg hloop]
      rw [e]
      refine ⟨rfl, ?_, ?_⟩ <;> simp <;> omega

theorem locatorLoop_found (env : PageEnv) (selectors : List Str)
    (timeoutMs start : Nat) :
    ∀ (fuel t : Nat) (sel : Str) (tEnd : Nat),
      locatorLoop env selectors timeoutMs start fuel t = (some sel, tEnd) →
      firstQualifying env tEnd selectors = some sel := by
  intro fuel
  induction fuel with
  | zero => intro t sel tEnd h; simp [locatorLoop] at h
  | succ fuel ih =>
    intro t sel tEnd h
    simp only [locatorLoop] at h
    by_cases hloop : t - start < timeoutMs
    · rw [if_pos hloop] at h
      rcases hfq : firstQualifying env t selectors with _ | s0
      · rw [hfq] at h
        exact ih (t + 200) sel tEnd h
      · rw [hfq] at h
        rcases Prod.mk.injEq .. ▸ h with ⟨h1, h2⟩
        rcases Option.some_inj.mp h1 with rfl
        rw [← h2]
        exact hfq
    · rw [if_neg hloop] at h
      simp at h

/-- C8 (status: confirmed, under the logical time model: selector sweeps are
instantaneous and each `sleep(200)` advances the clock by one 200 ms poll
interval).  For every selector list and positive timeout, if no selector
ever qualifies (no element with a non-zero-width, non-zero-height box), the
locator returns not-found no earlier than the timeout and no later than the
timeout plus one poll interval; and whenever the locator returns a selector,
it is the first selector of the list qualifying at the return time. -/
theorem findFirstVisibleHandle_spec (env : PageEnv) (selectors : List Str)
    (timeoutMs start : Nat)
    (hpos : 0 < timeoutMs)
    (hnever : ∀ t sel, qualifies env t sel = false) :
    (findFirstVisibleHandle env selectors timeoutMs start).1 = none ∧
    timeoutMs ≤ (findFirstVisibleHandle env selectors timeoutMs start).2 - start ∧
    (findFirstVisibleHandle env selectors timeoutMs start).2 - start ≤ timeoutMs + 200 ∧
    (∀ (env2 : PageEnv) (sel : Str) (tEnd : Nat),
      findFirstVisibleHandle env2 selectors timeoutMs start = (some sel, tEnd) →
      qualifies env2 tEnd sel = true ∧
      ∃ l1 l2, selectors = l1 ++ sel :: l2 ∧ ∀ x ∈ l1, qualifies env2 tEnd x = false) := by
  unfold findFirstVisibleHandle
  have h := locatorLoop_never_qualifies env selectors timeoutMs start hnever
    (timeoutMs + 1) start (Nat.le_refl start) (by omega) (by omega)
  refine ⟨h.1, h.2.1, by omega, ?_⟩
  intro env2 sel tEnd hfound
  exact firstQualifying_spec env2 tEnd selectors sel
    (locatorLoop_found env2 selectors timeoutMs start (timeoutMs + 1) start sel tEnd hfound)

/-- Witness for C8: a page where no selector ever has an element, polled
with a 300 ms timeout from time 0, reports not-found at time 400 —
within `[300, 500]`. -/
theorem findFirstVisibleHandle_spec_witness :
    (findFirstVisibleHandle (fun _ _ => none) ["s".data] 300 0).1 = none ∧
    300 ≤ (findFirstVisibleHandle (fun _ _ => none) ["s".data] 300 0).2 - 0 ∧
    (findFirstVisibleHandle (fun _ _ => none) ["s".data] 300 0).2 - 0 ≤ 300 + 200 ∧
    (∀ (env2 : PageEnv) (sel : Str) (tEnd : Nat),
      findFirstVisibleHandle env2 ["s".data] 300 0 = (some sel, tEnd) →
      qualifies env2 tEnd sel = true ∧
      ∃ l1 l2, ["s".data] = l1 ++ sel :: l2 ∧ ∀ x ∈ l1, qualifies env2 tEnd x = false) :=
  findFirstVisibleHandle_spec (fun _ _ => none) ["s".data] 300 0 (by decide)
    (fun _ _ => rfl)

/-! ## Lemmas about the quote selector -/

theorem length_dropWhile_le (p : Char → Bool) (l : Str) :
    (l.dropWhile p).length ≤ l.length := by
  induction l with
  | nil => simp
  | cons c rest ih =>
    by_cases hc : p c
    · rw [List.dropWhile_cons_of_pos hc]
      exact Nat.le_succ_of_le ih
    · rw [List.dropWhile_cons_of_neg hc]

theorem trimEndStr_length_le (l : Str) : (trimEndStr l).length ≤ l.length := by
  calc (trimEndStr l).length = (l.reverse.dropWhile isWs).length := by
        simp [trimEndStr]
    _ ≤ l.reverse.length := length_dropWhile_le _ _
    _ = l.length := List.length_reverse l

theorem jsTrim_length_le (l : Str) : (jsTrim l).length ≤ l.length := by
  calc (jsTrim l).length ≤ (l.dropWhile isWs).length := trimEndStr_length_le _
    _ ≤ l.length := length_dropWhile_le _ _

theorem selectFromBlocks_length_le (minLength maxLength perPage safeLimit : Nat)
    (url title : Str) :
    ∀ (blocks : List Str) (seen : List Str) (added count : Nat), added < perPage →
      (selectFromBlocks minLength maxLength perPage safeLimit url title blocks
        seen added count).1.length ≤ perPage - added := by
  intro blocks
  induction blocks with
  | nil => intro seen added count h; simp [selectFromBlocks]
  | cons b rest ih =>
    intro seen added count h
    simp only [selectFromBlocks]
    by_cases h1 : (normalizeWhitespace b).length < minLength
    · rw [if_pos h1]
      exact ih seen added count h
    · rw [if_neg h1]
      by_cases hdup : shortenBlock maxLength (normalizeWhitespace b) ∈ seen
      · rw [if_pos hdup]
        exact ih seen added count h
      · rw [if_neg hdup]
        by_cases hstop : perPage ≤ added + 1 ∨ safeLimit ≤ count + 1
        · rw [if_pos hstop]
          simp only [List.length_cons, List.length_nil]
          omega
        · rw [if_neg hstop]
          have hlt : added + 1 < perPage := by omega
          have hrec := ih (shortenBlock maxLength (normalizeWhitespace b) :: seen)
            (added + 1) (count + 1) hlt
          simp only [List.length_cons]
          omega

theorem selectPagesChunks_length_le (minLength maxLength perPage safeLimit : Nat)
    (hp : 0 < perPage) :
    ∀ (pages : List DetailPage) (seen : List Str) (count : Nat),
      ∀ chunk ∈ selectPagesChunks minLength maxLength perPage safeLimit pages seen count,
        chunk.length ≤ perPage := by
  intro pages
  induction pages with
  | nil => intro seen count chunk h; simp [selectPagesChunks] at h
  | cons page rest ih =>
    intro seen count chunk hmem
    simp only [selectPagesChunks] at hmem
    split_ifs at hmem with hstop
    · simp at hmem
    · rcases List.mem_cons.mp hmem with rfl | hmem
      · simpa using selectFromBlocks_length_le minLength maxLength perPage safeLimit
          page.url page.title page.content seen 0 count hp
      · exact ih _ _ chunk hmem

theorem selectPagesChunks_flatten (minLength maxLength perPage safeLimit : Nat) :
    ∀ (pages : List DetailPage) (seen : List Str) (count : Nat),
      (selectPagesChunks minLength maxLength perPage safeLimit pages seen count).flatten =
        selectPagesGo minLength maxLength perPage safeLimit pages seen count := by
  intro pages
  induction pages with
  | nil => intro seen count; rfl
  | cons page rest ih =>
    intro seen count
    simp only [selectPagesChunks, selectPagesGo]
    split_ifs with hstop
    · rfl
    · simp [ih]

/-- C4 (status: corrected).  Every document's contribution to the Quote
Selector's output (its chunk of the output) has at most
`max 1 perPageLimit` entries — the source clamps the per-page bound with
`Math.max(1, ...)`, so for `perPageLimit ≥ 1` (every value the program's
environment parsing can produce) this is the claimed bound `perPageLimit`,
while `perPageLimit ≤ 0` still admits one quote per document.  The chunks
flatten to exactly `selectQuotes`'s output. -/
theorem selectQuotes_per_document_bound (pages : List DetailPage)
    (limit perPageLimit minLength maxLength : Int) :
    (∀ chunk ∈ selectQuotesChunks pages limit perPageLimit minLength maxLength,
      (chunk.length : Int) ≤ max 1 perPageLimit) ∧
    (selectQuotesChunks pages limit perPageLimit minLength maxLength).flatten =
      selectQuotes pages limit perPageLimit minLength maxLength := by
  simp only [selectQuotesChunks, selectQuotes]
  split_ifs with h0
  · simp
  · constructor
    · intro chunk hmem
      have hb := selectPagesChunks_length_le (max 10 minLength.toNat)
        (max (max 10 minLength.toNat) maxLength.toNat) (max 1 perPageLimit).toNat
        (max 0 limit).toNat (by omega) pages [] 0 chunk hmem
      have : ((max 1 perPageLimit).toNat : Int) = max 1 perPageLimit :=
        Int.toNat_of_nonneg (by omega)
      omega
    · exact selectPagesChunks_flatten _ _ _ _ pages [] 0

/-- Witness for C4's membership hypothesis: with the default bounds, the
single document's chunk holds one quote, within the bound. -/
theorem selectQuotes_per_document_bound_witness :
    (([⟨"aaaaaaaaaaaa".data, "u".data, "t".data⟩] : List Quote).length : Int) ≤
      max 1 (2 : Int) :=
  (selectQuotes_per_document_bound [⟨"u".data, "t".data, ["aaaaaaaaaaaa".data]⟩]
    6 2 10 220).1 [⟨"aaaaaaaaaaaa".data, "u".data, "t".data⟩] (by decide)

/-- C4 counterexample: the claim as stated fails at `perPageLimit = 0` —
with one document holding one 10-character block and bounds
`(limit, perPageLimit, minLength, maxLength) = (1, 0, 0, 0)`, the selector
still accepts one quote from that document, exceeding `perPageLimit`. -/
theorem selectQuotes_per_document_counterexample :
    ¬ (((selectQuotes [⟨"u".data, "t".data, ["aaaaaaaaaa".data]⟩] 1 0 0 0).length : Int)
      ≤ 0) := by
  decide

theorem shortenBlock_length_le (maxLength : Nat) (hmax : 1 ≤ maxLength)
    (normalized : Str) : (shortenBlock maxLength normalized).length ≤ maxLength := by
  unfold shortenBlock
  split_ifs with h
  · have htake : (normalized.take (maxLength - 1)).length ≤ maxLength - 1 := by
      simp [List.length_take]
    have := trimEndStr_length_le (normalized.take (maxLength - 1))
    simp only [List.length_append, List.length_cons, List.length_nil]
    omega
  · omega

theorem selectFromBlocks_text_le (minLength maxLength perPage safeLimit : Nat)
    (hmax : 1 ≤ maxLength) (url title : Str) :
    ∀ (blocks : List Str) (seen : List Str) (added count : Nat),
      ∀ q ∈ (selectFromBlocks minLength maxLength perPage safeLimit url title blocks
        seen added count).1, q.text.length ≤ maxLength := by
  intro blocks
  induction blocks with
  | nil => intro seen added count q hq; simp [selectFromBlocks] at hq
  | cons b rest ih =>
    intro seen added count q hq
    simp only [selectFromBlocks] at hq
    by_cases h1 : (normalizeWhitespace b).length < minLength
    · rw [if_pos h1] at hq
      exact ih seen added count q hq
    · rw [if_neg h1] at hq
      by_cases hdup : shortenBlock maxLength (normalizeWhitespace b) ∈ seen
      · rw [if_pos hdup] at hq
        exact ih seen added count q hq
      · rw [if_neg hdup] at hq
        by_cases hstop : perPage ≤ added + 1 ∨ safeLimit ≤ count + 1
        · rw [if_pos hstop] at hq
          rcases List.mem_singleton.mp hq with rfl
          exact shortenBlock_length_le maxLength hmax _
        · rw [if_neg hstop] at hq
          rcases List.mem_cons.mp hq with rfl | hq
          · exact shortenBlock_length_le maxLength hmax _
          · exact ih _ _ _ q hq

theorem selectPagesGo_text_le (minLength maxLength perPage safeLimit : Nat)
    (hmax : 1 ≤ maxLength) :
    ∀ (pages : List DetailPage) (seen : List Str) (count : Nat),
      ∀ q ∈ selectPagesGo minLength maxLength perPage safeLimit pages seen count,
        q.text.length ≤ maxLength := by
  intro pages
  induction pages with
  | nil => intro seen count q hq; simp [selectPagesGo] at hq
  | cons page rest ih =>
    intro seen count q hq
    simp only [selectPagesGo] at hq
    split_ifs at hq with hstop
    · simp at hq
    · rcases List.mem_append.mp hq with hq | hq
      · exact selectFromBlocks_text_le minLength maxLength perPage safeLimit hmax
          page.url page.title page.content seen 0 count q hq
      · exact ih _ _ q hq

theorem selectFromBlocks_filter_short (minLength maxLength perPage safeLimit : Nat)
    (url title : Str) :
    ∀ (blocks : List Str) (seen : List Str) (added count : Nat),
      selectFromBlocks minLength maxLength perPage safeLimit url title
        (blocks.filter (fun b => minLength ≤ (normalizeWhitespace b).length))
        seen added count =
      selectFromBlocks minLength maxLength perPage safeLimit url title blocks
        seen added count := by
  intro blocks
  induction blocks with
  | nil => intro seen added count; rfl
  | cons b rest ih =>
    intro seen added count
    by_cases hb : minLength ≤ (normalizeWhitespace b).length
    · rw [List.filter_cons_of_pos (by simpa using hb)]
      have h1 : ¬ ((normalizeWhitespace b).length < minLength) := by omega
      simp only [selectFromBlocks]
      rw [if_neg h1, if_neg h1]
      by_cases hdup : shortenBlock maxLength (normalizeWhitespace b) ∈ seen
      · rw [if_pos hdup, if_pos hdup]
        exact ih seen added count
      · rw [if_neg hdup, if_neg hdup]
        by_cases hstop : perPage ≤ added + 1 ∨ safeLimit ≤ count + 1
        · rw [if_pos hstop, if_pos hstop]
        · rw [if_neg hstop, if_neg hstop,
            ih (shortenBlock maxLength (normalizeWhitespace b) :: seen)
              (added + 1) (count + 1)]
    · rw [List.filter_cons_of_neg (by simpa using hb)]
      have h1 : (normalizeWhitespace b).length < minLength := by omega
      conv_rhs => rw [selectFromBlocks]
      rw [if_pos h1]
      exact ih seen added count

theorem selectPagesGo_filter_short (minLength maxLength perPage safeLimit : Nat) :
    ∀ (pages : List DetailPage) (seen : List Str) (count : Nat),
      selectPagesGo minLength maxLength perPage safeLimit
        (pages.map (fun p => ⟨p.url, p.title,
          p.content.filter (fun b => minLength ≤ (normalizeWhitespace b).length)⟩))
        seen count =
      selectPagesGo minLength maxLength perPage safeLimit pages seen count := by
  intro pages
  induction pages with
  | nil => intro seen count; rfl
  | cons page rest ih =>
    intro seen count
    simp only [List.map_cons, selectPagesGo]
    split_ifs with hstop
    · rfl
    · rw [selectFromBlocks_filter_short minLength maxLength perPage safeLimit
        page.url page.title page.content seen 0 count]
      rw [ih]

/-- C6 (status: corrected).  Every quote selected by the Quote Selector has
text length at most the effective maximum `max (max 10 minLength) maxLength`
(the source clamps `minLength` up to 10 and `maxLength` up to the clamped
minimum) — this equals `maxLength` exactly when `maxLength ≥ max 10
minLength`, which holds for the program's defaults but not for every choice
of bounds.  Moreover text blocks whose normalized length is below the
effective minimum are never selected: removing them from every document
leaves the output unchanged (and a block shorter than `minLength` is also
shorter than the effective minimum). -/
theorem selectQuotes_text_length_bound (pages : List DetailPage)
    (limit perPageLimit minLength maxLength : Int) :
    (∀ q ∈ selectQuotes pages limit perPageLimit minLength maxLength,
      q.text.length ≤ max (max 10 minLength.toNat) maxLength.toNat) ∧
    selectQuotes (pages.map (fun p => ⟨p.url, p.title, p.content.filter
        (fun b => max 10 minLength.toNat ≤ (normalizeWhitespace b).length)⟩))
      limit perPageLimit minLength maxLength =
      selectQuotes pages limit perPageLimit minLength maxLength := by
  simp only [selectQuotes]
  split_ifs with h0
  · simp
  · constructor
    · intro q hq
      exact selectPagesGo_text_le (max 10 minLength.toNat)
        (max (max 10 minLength.toNat) maxLength.toNat) (max 1 perPageLimit).toNat
        (max 0 limit).toNat (by omega) pages [] 0 q hq
    · exact selectPagesGo_filter_short (max 10 minLength.toNat)
        (max (max 10 minLength.toNat) maxLength.toNat) (max 1 perPageLimit).toNat
        (max 0 limit).toNat pages [] 0

/-- Witness for C6's membership hypothesis: a selected 12-character quote is
within the effective maximum for bounds `(6, 2, 10, 220)`. -/
theorem selectQuotes_text_length_bound_witness :
    (⟨"aaaaaaaaaaaa".data, "u".data, "t".data⟩ : Quote).text.length ≤
      max (max 10 (10 : Int).toNat) (220 : Int).toNat :=
  (selectQuotes_text_length_bound [⟨"u".data, "t".data, ["aaaaaaaaaaaa".data]⟩]
    6 2 10 220).1 ⟨"aaaaaaaaaaaa".data, "u".data, "t".data⟩ (by decide)

/-- C6 counterexample: the claim as stated fails for bounds the environment
can request — with `minLength = 5`, `maxLength = 7` the source clamps the
effective range to `[10, 10]`, and a 10-character block is selected with
text length `10 > 7 = maxLength`. -/
theorem selectQuotes_maxLength_counterexample :
    ∃ q ∈ selectQuotes [⟨"u".data, "t".data, ["aaaaaaaaaa".data]⟩] 6 2 5 7,
      ¬ ((q.text.length : Int) ≤ 7) := by
  decide

/-! ## Lemmas about trimming and `clampBodyLength` -/

theorem dropWhile_eq_cons_head (p : Char → Bool) :
    ∀ (l : Str) {c : Char} {t : Str}, l.dropWhile p = c :: t → p c = false := by
  intro l
  induction l with
  | nil => intro c t h; simp at h
  | cons a rest ih =>
    intro c t h
    by_cases ha : p a
    · rw [List.dropWhile_cons_of_pos ha] at h
      exact ih h
    · rw [List.dropWhile_cons_of_neg ha] at h
      rcases List.cons.injEq .. ▸ h with ⟨rfl, _⟩
      simpa using ha

theorem exists_prefix_dropWhile (p : Char → Bool) :
    ∀ l : Str, ∃ pre : Str, l = pre ++ l.dropWhile p := by
  intro l
  induction l with
  | nil => exact ⟨[], rfl⟩
  | cons a rest ih =>
    by_cases ha : p a
    · rcases ih with ⟨pre, hpre⟩
      rw [List.dropWhile_cons_of_pos ha]
      exact ⟨a :: pre, by simpa using hpre⟩
    · rw [List.dropWhile_cons_of_neg ha]
      exact ⟨[], rfl⟩

theorem jsTrim_head_not_ws (y : Str) {c : Char} {t : Str}
    (h : jsTrim y = c :: t) : isWs c = false := by
  unfold jsTrim trimEndStr at h
  have h2 : (y.dropWhile isWs).reverse.dropWhile isWs = (c :: t).reverse := by
    rw [← h, List.reverse_reverse]
  rcases exists_prefix_dropWhile isWs (y.dropWhile isWs).reverse with ⟨pre, hpre⟩
  rw [h2] at hpre
  have hy : y.dropWhile isWs = c :: (t ++ pre.reverse) := by
    have := congrArg List.reverse hpre
    simpa using this
  exact dropWhile_eq_cons_head isWs y hy

theorem jsTrim_reverse_head_not_ws (y : Str) {c : Char} {t : Str}
    (h : (jsTrim y).reverse = c :: t) : isWs c = false := by
  unfold jsTrim trimEndStr at h
  rw [List.reverse_reverse] at h
  exact dropWhile_eq_cons_head isWs _ h

theorem jsTrim_fixed (x : Str)
    (hhead : ∀ c t, x = c :: t → isWs c = false)
    (hlast : ∀ c t, x.reverse = c :: t → isWs c = false) :
    jsTrim x = x := by
  have h1 : x.dropWhile isWs = x := by
    cases hx : x with
    | nil => simp
    | cons c t => exact List.dropWhile_cons_of_neg (by simp [hhead c t hx])
  have h2 : x.reverse.dropWhile isWs = x.reverse := by
    cases hr : x.reverse with
    | nil => simp
    | cons d s => exact List.dropWhile_cons_of_neg (by simp [hlast d s hr])
  unfold jsTrim trimEndStr
  rw [h1, h2, List.reverse_reverse]

theorem jsTrim_idem (y : Str) : jsTrim (jsTrim y) = jsTrim y := by
  apply jsTrim_fixed
  · intro c t h
    exact jsTrim_head_not_ws y h
  · intro c t h
    exact jsTrim_reverse_head_not_ws y h

theorem joinBlank_cons_cons (x y : Str) (t : List Str) :
    joinBlank (x :: y :: t) = x ++ ('\n' :: '\n' :: joinBlank (y :: t)) := rfl

theorem joinBlank_head (x : Str) (t : List Str) {c : Char} {s : Str} (hx : x = c :: s) :
    ∃ s2, joinBlank (x :: t) = c :: s2 := by
  cases t with
  | nil => exact ⟨s, hx⟩
  | cons y t2 => exact ⟨s ++ ('\n' :: '\n' :: joinBlank (y :: t2)), by
      rw [joinBlank_cons_cons, hx]; rfl⟩

theorem joinBlank_ne_nil (x : Str) (t : List Str) (hx : x ≠ []) :
    joinBlank (x :: t) ≠ [] := by
  cases x with
  | nil => exact absurd rfl hx
  | cons c s =>
    rcases joinBlank_head (c :: s) t rfl with ⟨s2, hs2⟩
    simp [hs2]

theorem joinBlank_reverse_head :
    ∀ l : List Str, (∀ x ∈ l, x ≠ []) →
      ∀ c t, (joinBlank l).reverse = c :: t →
        ∃ x ∈ l, ∃ s, x.reverse = c :: s := by
  intro l
  induction l with
  | nil => intro hne c t h; simp [joinBlank] at h
  | cons x rest ih =>
    intro hne c t h
    cases rest with
    | nil =>
      exact ⟨x, by simp, t, h⟩
    | cons y t2 =>
      rw [joinBlank_cons_cons, List.reverse_append] at h
      have hyne : joinBlank (y :: t2) ≠ [] :=
        joinBlank_ne_nil y t2 (hne y (by simp))
      cases hj : (joinBlank (y :: t2)).reverse with
      | nil =>
        exact absurd (by simpa using congrArg List.reverse hj) hyne
      | cons d s =>
        have he : ('\n' :: '\n' :: joinBlank (y :: t2)).reverse =
            d :: (s ++ ['\n', '\n']) := by
          have : ('\n' :: '\n' :: joinBlank (y :: t2)).reverse =
              (joinBlank (y :: t2)).reverse ++ ['\n', '\n'] := by simp
          rw [this, hj]
          rfl
        rw [he] at h
        have hdc : d = c := (List.cons.injEq .. ▸ h).1
        subst hdc
        rcases ih (fun z hz => hne z (List.mem_cons_of_mem x hz)) d s hj with
          ⟨z, hz, s3, hs3⟩
        exact ⟨z, List.mem_cons_of_mem x hz, s3, hs3⟩

theorem jsTrim_joinBlank_fixed (l : List Str)
    (h : ∀ x ∈ l, (∃ y, x = jsTrim y) ∧ x ≠ []) (hl : l ≠ []) :
    jsTrim (joinBlank l) = joinBlank l := by
  apply jsTrim_fixed
  · intro c t hc
    cases l with
    | nil => exact absurd rfl hl
    | cons x rest =>
      rcases h x (by simp) with ⟨⟨y, hy⟩, hxne⟩
      cases hx : x with
      | nil => exact absurd hx hxne
      | cons c0 s0 =>
        rcases joinBlank_head x rest hx with ⟨s2, hs2⟩
        rw [hs2] at hc
        have hcc : c0 = c := (List.cons.injEq .. ▸ hc).1
        subst hcc
        exact jsTrim_head_not_ws y (by rw [← hy, hx])
  · intro c t hc
    rcases joinBlank_reverse_head l (fun x hx => (h x hx).2) c t hc with
      ⟨x, hxl, s, hs⟩
    rcases h x hxl with ⟨⟨y, hy⟩, _⟩
    exact jsTrim_reverse_head_not_ws y (by rw [← hy]; exact hs)

theorem clampChunksGo_cons_false (maxChars : Nat) (p : Str) (rest : List Str)
    (count : Nat) :
    clampChunksGo maxChars (p :: rest) count false =
      if maxChars < count + 2 + p.length then []
      else p :: clampChunksGo maxChars rest (count + 2 + p.length) false := rfl

theorem clampChunksGo_cons_true (maxChars : Nat) (p : Str) (rest : List Str)
    (count : Nat) :
    clampChunksGo maxChars (p :: rest) count true =
      if maxChars < count + 0 + p.length then []
      else p :: clampChunksGo maxChars rest (count + 0 + p.length) false := rfl

theorem clampChunksGo_isPrefix (maxChars : Nat) :
    ∀ (ps : List Str) (count : Nat) (first : Bool),
      ∃ k, clampChunksGo maxChars ps count first = ps.take k := by
  intro ps
  induction ps with
  | nil => intro count first; exact ⟨0, rfl⟩
  | cons p rest ih =>
    intro count first
    cases first
    · rw [clampChunksGo_cons_false]
      by_cases hfit : maxChars < count + 2 + p.length
      · rw [if_pos hfit]; exact ⟨0, rfl⟩
      · rw [if_neg hfit]
        rcases ih (count + 2 + p.length) false with ⟨k, hk⟩
        exact ⟨k + 1, by rw [List.take_succ_cons, hk]⟩
    · rw [clampChunksGo_cons_true]
      by_cases hfit : maxChars < count + 0 + p.length
      · rw [if_pos hfit]; exact ⟨0, rfl⟩
      · rw [if_neg hfit]
        rcases ih (count + 0 + p.length) false with ⟨k, hk⟩
        exact ⟨k + 1, by rw [List.take_succ_cons, hk]⟩

theorem clampChunksGo_false_cost (maxChars : Nat) :
    ∀ (ps : List Str) (count : Nat), count ≤ maxChars →
      count + (if clampChunksGo maxChars ps count false = [] then 0
        else 2 + (joinBlank (clampChunksGo maxChars ps count false)).length) ≤ maxChars := by
  intro ps
  induction ps with
  | nil => intro count h; simpa [clampChunksGo] using h
  | cons p rest ih =>
    intro count h
    rw [clampChunksGo_cons_false]
    by_cases hfit : maxChars < count + 2 + p.length
    · rw [if_pos hfit]
      simpa using h
    · rw [if_neg hfit]
      have hrec := ih (count + 2 + p.length) (by omega)
      cases hc : clampChunksGo maxChars rest (count + 2 + p.length) false with
      | nil =>
        have hj : joinBlank [p] = p := rfl
        simp only [hj, reduceCtorEq, if_false]
        omega
      | cons q qs =>
        rw [hc] at hrec
        simp only [joinBlank_cons_cons, reduceCtorEq, if_false,
          List.length_append, List.length_cons] at hrec ⊢
        omega

theorem clampChunksGo_true_length (maxChars : Nat) (ps : List Str) :
    (joinBlank (clampChunksGo maxChars ps 0 true)).length ≤ maxChars := by
  cases ps with
  | nil => simp [clampChunksGo, joinBlank]
  | cons p rest =>
    rw [clampChunksGo_cons_true]
    by_cases hfit : maxChars < 0 + 0 + p.length
    · rw [if_pos hfit]
      simp [joinBlank]
    · rw [if_neg hfit]
      have hrec := clampChunksGo_false_cost maxChars rest (0 + 0 + p.length)
        (by omega)
      cases hc : clampChunksGo maxChars rest (0 + 0 + p.length) false with
      | nil =>
        have hj : joinBlank [p] = p := rfl
        rw [hj]
        omega
      | cons q qs =>
        rw [hc] at hrec
        simp only [joinBlank_cons_cons, reduceCtorEq, if_false,
          List.length_append, List.length_cons] at hrec ⊢
        omega

theorem clampParagraphs_mem (body : Str) (x : Str) (hx : x ∈ clampParagraphs body) :
    (∃ y, x = jsTrim y) ∧ x ≠ [] := by
  unfold clampParagraphs at hx
  rcases List.mem_filter.mp hx with ⟨hmem, hne⟩
  rcases List.mem_map.mp hmem with ⟨y, _, hy⟩
  exact ⟨⟨y, hy.symm⟩, by simpa using hne⟩

/-- C10 (status: confirmed).  `clampBodyLength` returns a string of length
at most `maxChars` whenever `maxChars > 0`; it returns the body unchanged
whenever the body already fits (or `maxChars ≤ 0`); and when clamping
occurs it returns either the blank-line join of a non-empty prefix of the
body's trimmed paragraphs (when at least the first paragraph fits), or the
trimmed raw character prefix of length `maxChars`. -/
theorem clampBodyLength_spec (body : Str) (maxChars : Int) :
    (0 < maxChars → ((clampBodyLength body maxChars).length : Int) ≤ maxChars) ∧
    (maxChars ≤ 0 ∨ (body.length : Int) ≤ maxChars →
      clampBodyLength body maxChars = body) ∧
    (0 < maxChars → maxChars < (body.length : Int) →
      (∃ k, 0 < k ∧ clampBodyLength body maxChars =
        joinBlank ((clampParagraphs body).take k)) ∨
      clampBodyLength body maxChars = jsTrim (body.take maxChars.toNat)) := by
  refine ⟨?_, ?_, ?_⟩
  · intro hpos
    simp only [clampBodyLength]
    split_ifs with hpass hchunks
    · omega
    · have h1 := jsTrim_length_le ((joinBlank (clampChunksGo maxChars.toNat
        (clampParagraphs body) 0 true)).take maxChars.toNat)
      have h2 : ((joinBlank (clampChunksGo maxChars.toNat (clampParagraphs body)
          0 true)).take maxChars.toNat).length ≤ maxChars.toNat := by
        simp [List.length_take]
      omega
    · have h1 := jsTrim_length_le (body.take maxChars.toNat)
      have h2 : (body.take maxChars.toNat).length ≤ maxChars.toNat := by
        simp [List.length_take]
      omega
  · intro hpass
    simp only [clampBodyLength]
    rw [if_pos hpass]
  · intro hpos hlong
    simp only [clampBodyLength]
    rw [if_neg (by omega)]
    by_cases hchunks : clampChunksGo maxChars.toNat (clampParagraphs body) 0 true ≠ []
    · rw [if_pos hchunks]
      left
      rcases clampChunksGo_isPrefix maxChars.toNat (clampParagraphs body) 0 true with
        ⟨k, hk⟩
      refine ⟨k, ?_, ?_⟩
      · rcases Nat.eq_zero_or_pos k with rfl | hkpos
        · simp [hk] at hchunks
        · exact hkpos
      · have hlen := clampChunksGo_true_length maxChars.toNat (clampParagraphs body)
        rw [List.take_of_length_le hlen]
        rw [jsTrim_joinBlank_fixed _ ?_ hchunks, hk]
        intro x hx
        exact clampParagraphs_mem body x (by rw [hk] at hx; exact List.mem_of_mem_take hx)
    · rw [if_neg hchunks]
      right
      rfl

/-- Witness for C10: the body `"aaaa\n\nbbbb\n\ncccc"` clamped to 9
characters keeps the first whole paragraph and satisfies the length bound,
and a body within the limit passes through unchanged. -/
theorem clampBodyLength_spec_witness :
    ((clampBodyLength "aaaa\n\nbbbb\n\ncccc".data 9).length : Int) ≤ 9 ∧
    clampBodyLength "abc".data 9 = "abc".data ∧
    ((∃ k, 0 < k ∧ clampBodyLength "aaaa\n\nbbbb\n\ncccc".data 9 =
        joinBlank ((clampParagraphs "aaaa\n\nbbbb\n\ncccc".data).take k)) ∨
      clampBodyLength "aaaa\n\nbbbb\n\ncccc".data 9 =
        jsTrim ("aaaa\n\nbbbb\n\ncccc".data.take (9 : Int).toNat)) :=
  ⟨(clampBodyLength_spec "aaaa\n\nbbbb\n\ncccc".data 9).1 (by decide),
    (clampBodyLength_spec "abc".data 9).2.1 (Or.inr (by decide)),
    (clampBodyLength_spec "aaaa\n\nbbbb\n\ncccc".data 9).2.2 (by decide) (by decide)⟩

/-! ## Lemmas about the auto-heading inserter -/

theorem dropWhile_ne_nil_of_mem {c : Char} :
    ∀ l : Str, c ∈ l → isWs c = false → l.dropWhile isWs ≠ [] := by
  intro l
  induction l with
  | nil => intro h; simp at h
  | cons a rest ih =>
    intro hmem hc
    by_cases ha : isWs a = true
    · rw [List.dropWhile_cons, if_pos ha]
      rcases List.mem_cons.mp hmem with rfl | hmem
      · rw [hc] at ha
        cases ha
      · exact ih hmem hc
    · rw [List.dropWhile_cons, if_neg ha]
      simp

theorem headingAt_h2Line (p tail : Str) :
    headingAt ('#' :: '#' :: ' ' :: (p ++ ' ' :: '1' :: tail)) = true := by
  simp only [headingAt]
  rw [List.dropWhile_cons, if_neg (by decide)]
  rw [List.takeWhile_cons, if_pos (by decide), List.takeWhile_cons, if_pos (by decide),
    List.takeWhile_cons, if_neg (by decide)]
  rw [List.dropWhile_cons, if_pos (by decide), List.dropWhile_cons, if_pos (by decide),
    List.dropWhile_cons, if_neg (by decide)]
  have hmem : '1' ∈ p ++ ' ' :: '1' :: tail :=
    List.mem_append.mpr (Or.inr (by simp))
  have hne : (p ++ ' ' :: '1' :: tail).dropWhile isWs ≠ [] :=
    dropWhile_ne_nil_of_mem _ hmem (by decide)
  have hdw : (' ' :: (p ++ ' ' :: '1' :: tail)).dropWhile isWs =
      (p ++ ' ' :: '1' :: tail).dropWhile isWs := by
    rw [List.dropWhile_cons, if_pos (by decide)]
  simp only [List.length_cons, List.length_nil, hdw]
  simp [List.isEmpty_iff, hne]
  decide

theorem applyAutoHeadings_of_hmh (cfg : AutoHeadingConfig) (b : Str)
    (hmh : hasMarkdownHeadings b = true) : applyAutoHeadings cfg b = b := by
  simp only [applyAutoHeadings]
  by_cases h1 : ¬ (cfg.autoHeadings = true)
  · rw [if_pos h1]
  · rw [if_neg h1]
    by_cases h2 : jsTrim b = []
    · rw [if_pos h2]
    · rw [if_neg h2, if_pos hmh]

theorem applyAutoHeadings_nil (cfg : AutoHeadingConfig) :
    applyAutoHeadings cfg [] = [] := by
  simp only [applyAutoHeadings]
  by_cases h1 : ¬ (cfg.autoHeadings = true)
  · rw [if_pos h1]
  · rw [if_neg h1, if_pos (by rfl)]

theorem joinBlank_cons_exists (x : Str) (t : List Str) :
    ∃ tail, joinBlank (x :: t) = x ++ tail := by
  cases t with
  | nil => exact ⟨[], by simp [joinBlank]⟩
  | cons y t2 => exact ⟨'\n' :: '\n' :: joinBlank (y :: t2), joinBlank_cons_cons x y t2⟩

theorem buildAutoLines_cons_zero (safeH2Every safeH3Every : Nat) (p2 p3 : Str)
    (h2Index h3Index : Nat) (para : Str) (rest : List Str) :
    buildAutoLines safeH2Every safeH3Every p2 p3 0 h2Index h3Index (para :: rest) =
      (['#', '#', ' '] ++ p2 ++ (' ' :: natStr h2Index)) :: para ::
        buildAutoLines safeH2Every safeH3Every p2 p3 1 (h2Index + 1) h3Index rest := by
  simp only [buildAutoLines]
  rw [if_pos (Nat.zero_mod _)]

/-- C5 (status: confirmed).  The Auto-Heading Inserter is idempotent: for
every configuration and every body, applying `applyAutoHeadings` to its own
output returns that output unchanged.  A body that already contains `##` or
`###` heading markers is returned unchanged by definition, and whenever the
inserter inserts anything its output starts with a `##` heading line, which
`hasMarkdownHeadings` recognizes. -/
theorem applyAutoHeadings_idempotent (cfg : AutoHeadingConfig) (body : Str) :
    applyAutoHeadings cfg (applyAutoHeadings cfg body) = applyAutoHeadings cfg body := by
  by_cases hauto : cfg.autoHeadings = true
  · by_cases h2 : jsTrim body = []
    · have ef : applyAutoHeadings cfg body = body := by
        simp only [applyAutoHeadings]
        rw [if_neg (not_not_intro hauto), if_pos h2]
      rw [ef]
      exact ef
    · by_cases h3 : hasMarkdownHeadings body = true
      · rw [applyAutoHeadings_of_hmh cfg body h3]
        exact applyAutoHeadings_of_hmh cfg body h3
      · by_cases h4 : ((splitParagraphs body cfg.paragraphTarget).length : Int) <
            cfg.minParagraphs
        · have ef : applyAutoHeadings cfg body = body := by
            simp only [applyAutoHeadings]
            rw [if_neg (not_not_intro hauto), if_neg h2, if_neg h3, if_pos h4]
          rw [ef]
          exact ef
        · have ef : applyAutoHeadings cfg body =
              joinBlank (buildAutoLines (max 1 cfg.h2Every).toNat
                (max 0 cfg.h3Every).toNat
                (if cfg.h2Prefix ≠ [] then cfg.h2Prefix else "Section".data)
                (if cfg.h3Prefix ≠ [] then cfg.h3Prefix else "Point".data)
                0 1 1 (splitParagraphs body cfg.paragraphTarget)) := by
            simp only [applyAutoHeadings]
            rw [if_neg (not_not_intro hauto), if_neg h2, if_neg h3, if_neg h4]
          rw [ef]
          cases hps : splitParagraphs body cfg.paragraphTarget with
          | nil =>
            simp only [buildAutoLines, joinBlank]
            exact applyAutoHeadings_nil cfg
          | cons p ps =>
            rw [buildAutoLines_cons_zero]
            rcases joinBlank_cons_exists
              (['#', '#', ' '] ++ (if cfg.h2Prefix ≠ [] then cfg.h2Prefix
                else "Section".data) ++ (' ' :: natStr 1))
              (p :: buildAutoLines (max 1 cfg.h2Every).toNat (max 0 cfg.h3Every).toNat
                (if cfg.h2Prefix ≠ [] then cfg.h2Prefix else "Section".data)
                (if cfg.h3Prefix ≠ [] then cfg.h3Prefix else "Point".data) 1 2 1 ps)
              with ⟨tail, htail⟩
            rw [htail]
            apply applyAutoHeadings_of_hmh
            have hshape : (['#', '#', ' '] ++ (if cfg.h2Prefix ≠ [] then cfg.h2Prefix
                else "Section".data) ++ (' ' :: natStr 1)) ++ tail =
                '#' :: '#' :: ' ' :: ((if cfg.h2Prefix ≠ [] then cfg.h2Prefix
                  else "Section".data) ++ ' ' :: '1' :: tail) := by
              have h1 : natStr 1 = ['1'] := rfl
              rw [h1]
              simp
            rw [hshape]
            unfold hasMarkdownHeadings
            rw [headingAt_h2Line]
            rfl
  · have ef : ∀ b : Str, applyAutoHeadings cfg b = b := by
      intro b
      simp only [applyAutoHeadings]
      rw [if_pos hauto]
    rw [ef, ef]

end NoteEngine
